import Mathlib

/-!
Verification development for the setup-py backend task
(`src/python/pants/backend/python/tasks/setup_py.py`).

The source is shallowly embedded over finite graphs: build-graph targets are
elements of `Fin n`, and the capability set of `ExportedTargetDependencyCalculator`
(`is_exported`, `requires_export`, `dependencies`) together with the graph
collaborator's data (`address.spec_path`, `is_original`, `derived_from`, the
registered-target enumeration used by `TargetAncestorIterator`) is a record of
functions on `Fin n`.  All definitions are executable; machine evaluation of
concrete graphs is used to witness the theorems.
-/

namespace SetupPyModel

/-- A build graph restricted to what `setup_py.py` consumes.  `dependencies`
models the calculator capability `dependencies(target)` (for the concrete
`SetupPy.DependencyCalculator` this is `target.dependencies` extended with
provided binaries; the abstract algorithm only ever calls the capability).
`spec_path` is `target.address.spec_path` split into path segments.
Registered-target enumeration order (`inject_specs_closure`) is the `Fin n`
order. -/
structure Graph (n : Nat) where
  dependencies : Fin n → List (Fin n)
  spec_path : Fin n → List String
  is_original : Fin n → Bool
  derived_from : Fin n → Fin n
  is_exported : Fin n → Bool
  requires_export : Fin n → Bool

/-- Ordered-set insertion: `OrderedSet.add` / first-time `OrderedDict` key
insertion keeps the first occurrence and appends new elements. -/
def osAdd {α : Type} [DecidableEq α] (s : List α) (x : α) : List α :=
  if x ∈ s then s else s ++ [x]

/-- The order-preserving deduplication performed by building an `OrderedSet`
(or the key list of an `OrderedDict`) from a sequence. -/
def dedupFirst {α : Type} [DecidableEq α] (l : List α) : List α :=
  l.foldl osAdd []

/-- Largest `dependencies` list length in the graph; used to bound the walk. -/
def maxDepsLen {n : Nat} (g : Graph n) : Nat :=
  ((List.finRange n).map (fun t => (g.dependencies t).length)).foldr max 0

/-- One step of `ExportedTargetDependencyCalculator._walk`, as an explicit
stack machine: the recursive Python walk (visit `current` if unvisited, then,
when the visitor returns true, walk each dependency in order) produces exactly
the visit sequence of this machine, which pops the next node, records it if
unvisited, and pushes its dependencies ahead of the remaining stack when
`keep` holds.  `fuel` is a step budget; `walkFuel` below always suffices (a
theorem, not an assumption).  The returned list is the sequence of visitor
invocations in order. -/
def walkAux {n : Nat} (g : Graph n) (keep : Fin n → Bool) :
    Nat → List (Fin n) → List (Fin n) → List (Fin n)
  | 0, _, visited => visited
  | _ + 1, [], visited => visited
  | fuel + 1, c :: rest, visited =>
    if c ∈ visited then
      walkAux g keep fuel rest visited
    else if keep c then
      walkAux g keep fuel (g.dependencies c ++ rest) (visited ++ [c])
    else
      walkAux g keep fuel rest (visited ++ [c])

/-- A step budget sufficient for `walkAux` to run to completion from a single
start node (proved in the development below). -/
def walkFuel {n : Nat} (g : Graph n) : Nat :=
  1 + n * (1 + maxDepsLen g)

/-- `ExportedTargetDependencyCalculator._walk(target, visitor)`: the sequence
of nodes on which the visitor is invoked, in invocation order, where `keep c`
is the visitor's return value on `c` (the Python visitors' side effects are
determined by the visited node, so the visit sequence determines them). -/
def walk {n : Nat} (g : Graph n) (keep : Fin n → Bool) (t : Fin n) : List (Fin n) :=
  walkAux g keep (walkFuel g) [t] []

/-- `ExportedTargetDependencyCalculator._closure(target)`: the walk with an
always-true visitor; only membership in the result is ever consumed. -/
def closureL {n : Nat} (g : Graph n) (t : Fin n) : List (Fin n) :=
  walk g (fun _ => true) t

/-- The chain of spec paths enumerated by
`TargetAncestorIterator.iter_target_siblings_and_ancestors`: the target's own
spec path, then each `os.path.dirname` ancestor, ending with the buildroot
path `[]` (the Python generator stops once `dirname` is a fixpoint, i.e. after
yielding the empty path).  Realized as an explicit take-length loop. -/
def specPathChain (p : List String) : List (List String) :=
  (List.range (p.length + 1)).reverse.map (fun i => p.take i)

/-- The registered targets whose address lives at exactly the given spec path,
in registration order (`inject_specs_closure` over `SiblingAddresses`). -/
def targetsAtPath {n : Nat} (g : Graph n) (p : List String) : List (Fin n) :=
  (List.finRange n).filter (fun t => g.spec_path t = p)

/-- `iter_target_siblings_and_ancestors(target)` keyed by the target's spec
path: all registered targets in the target's own BUILD-family, then its
parent directory's family, and so on up to the buildroot, nearest first. -/
def siblingsAndAncestors {n : Nat} (g : Graph n) (owned : Fin n) : List (Fin n) :=
  (specPathChain (g.spec_path owned)).flatMap (targetsAtPath g)

/-- The errors raised by `ExportedTargetDependencyCalculator`. -/
inductive CalcError (n : Nat) where
  | unExported : CalcError n
  | noOwner : Fin n → CalcError n
  | ambiguousOwner : Fin n → CalcError n
deriving DecidableEq

/-- The candidate owners collected for one provisionally-owned target in pass
2 of `reduced_dependencies`: ancestor-lineage members that are exported and
whose closure contains the owned target, in lineage-enumeration order.  The
Python code accumulates them in a set; no target can be enumerated twice
(each target belongs to exactly one spec-path family and the chain's paths
are pairwise distinct), so insertion order is the enumeration order. -/
def candidateOwners {n : Nat} (g : Graph n) (owned : Fin n) : List (Fin n) :=
  (siblingsAndAncestors g owned).filter
    (fun p => g.is_exported p && decide (owned ∈ closureL g p))

/-- Pass-2 resolution for a single owned target, determinized: no candidate
raises `NoOwnerError`; otherwise one candidate is removed as the owner by
`potential_owners.pop()`, and any remaining candidate with the owner's exact
spec path makes the ownership ambiguous (`AmbiguousOwnerError`).  CPython's
`set.pop()` returns an *arbitrary* element; this pipeline definition pins
that choice to the first lineage-enumeration candidate so that the whole
computation stays a function of the graph.  Properties proved through
`reduced_dependencies` below are invariant under the pop choice; the pop
itself is modelled relationally by `resolveOwnerStepFrom`, which takes the
popped candidate as an explicit parameter. -/
def resolveOwnerStep {n : Nat} (g : Graph n) (owned : Fin n) :
    Except (CalcError n) (Fin n) :=
  match candidateOwners g owned with
  | [] => .error (.noOwner owned)
  | owner :: rest =>
    if rest.any (fun o => g.spec_path o = g.spec_path owner) then
      .error (.ambiguousOwner owned)
    else
      .ok owner

/-- Pass-2 resolution with the element removed by `potential_owners.pop()`
made explicit: the popped `owner` is a parameter, constrained by hypotheses
to be one of the candidates, since the source's `set.pop()` may return any
element of the unordered candidate set.  The remaining candidates are the
candidate list with `owner` removed — the list is duplicate-free
(`candidateOwners_nodup` below), so it is exactly the Python set with the
insertion order remembered — and ambiguity is judged against the popped
owner's spec path, as in the source. -/
def resolveOwnerStepFrom {n : Nat} (g : Graph n) (owned owner : Fin n) :
    Except (CalcError n) (Fin n) :=
  if ((candidateOwners g owned).erase owner).any
      (fun o => g.spec_path o = g.spec_path owner) then
    .error (.ambiguousOwner owned)
  else
    .ok owner

/-- Pass 2 of `reduced_dependencies`: iterate the provisionally-collected
targets in collection order; each one that requires export and is not itself
exported is resolved to its owner, recording the `owned ↦ owner` entries of
`owner_by_owned_python_target` (unresolved entries keep value `None` in the
Python dict and are equivalently simply absent here). -/
def resolveOwnersAux {n : Nat} (g : Graph n) :
    List (Fin n) → List (Fin n × Fin n) → Except (CalcError n) (List (Fin n × Fin n))
  | [], acc => .ok acc
  | o :: rest, acc =>
    if g.requires_export o && !g.is_exported o then
      match resolveOwnerStep g o with
      | .error e => .error e
      | .ok owner => resolveOwnersAux g rest (acc ++ [(o, owner)])
    else
      resolveOwnersAux g rest acc

/-- Pass 1 of `reduced_dependencies`: walk from the original (pre-codegen)
exported target, recording every `is_original` visited target as provisionally
owned; the walk does not descend past exported targets other than the
starting `exported_target`. -/
def ownedList {n : Nat} (g : Graph n) (t : Fin n) : List (Fin n) :=
  (walk g (fun c => c == t || !g.is_exported c) (g.derived_from t)).filter g.is_original

/-- `owner_by_owned_python_target.get(current)`: the resolved owner of a
target, or `none` when the target was never collected or never resolved. -/
def ownerOf {n : Nat} (pairs : List (Fin n × Fin n)) (c : Fin n) : Option (Fin n) :=
  (pairs.find? (fun p => p.1 == c)).map Prod.snd

/-- `ExportedTargetDependencyCalculator.reduced_dependencies(exported_target)`.
Raises `UnExportedError` on a non-exported argument; then runs passes 1-3 of
the source: provisional collection, ownership resolution, and the final walk
that replaces each visited dependency with its owner, keeps third-party and
self-owned targets as-is, and filters the result to original targets. -/
def reduced_dependencies {n : Nat} (g : Graph n) (t : Fin n) :
    Except (CalcError n) (List (Fin n)) :=
  if !g.is_exported t then
    .error .unExported
  else
    match resolveOwnersAux g (ownedList g t) [] with
    | .error e => .error e
    | .ok pairs =>
      let keep3 : Fin n → Bool := fun c =>
        c == t || ownerOf pairs c == some t || !g.requires_export c
      let visit3 := walk g keep3 t
      let mapped := (visit3.filter (fun c => c != t)).map (fun c =>
        match ownerOf pairs c with
        | some o => if o == t then c else o
        | none => c)
      .ok (dedupFirst ((dedupFirst mapped).filter g.is_original))

instance {ε α : Type} [DecidableEq ε] [DecidableEq α] : DecidableEq (Except ε α)
  | .error a, .error b =>
    if h : a = b then .isTrue (by rw [h]) else .isFalse (by simp [h])
  | .error _, .ok _ => .isFalse (by simp)
  | .ok _, .error _ => .isFalse (by simp)
  | .ok a, .ok b =>
    if h : a = b then .isTrue (by rw [h]) else .isFalse (by simp [h])

/-! ## `SetupPy.install_requires` (lines 493-502) and `write_setup` (line 571) -/

/-- The target classes `SetupPy.install_requires` distinguishes: requirement
libraries (`is_requirements`, carrying `payload.requirements` rendered to
strings), python targets (with `provides.key` when exported, so that
`has_provides` holds exactly on `pythonTarget (some _)`), and resources
targets; the classes are disjoint in the source (distinct target types). -/
inductive STarget where
  | requirementLib : List String → STarget
  | pythonTarget : Option String → STarget
  | resourcesTarget : STarget
deriving DecidableEq

/-- The strings a reduced-dependency member contributes to `install_requires`:
all requirement strings for a requirement library, the provided package name
for an exported python target, nothing otherwise. -/
def contribStrings : STarget → List String
  | .requirementLib rs => rs
  | .pythonTarget (some k) => [k]
  | _ => []

/-- `SetupPy.install_requires(reduced_dependencies)`: an `OrderedSet` built by
iterating the reduced dependencies in order, adding requirement strings for
requirement libraries and `provides.key` for exported targets.  `write_setup`
stores `list(...)` of this very value as the `install_requires` keyword, with
no further reordering. -/
def install_requires (deps : List STarget) : List String :=
  deps.foldl (fun acc d =>
    match d with
    | .requirementLib rs => rs.foldl osAdd acc
    | .pythonTarget (some k) => osAdd acc k
    | .pythonTarget none => acc
    | .resourcesTarget => acc) []

/-! ## `SetupPy.nearest_subpackage` (lines 372-380) and `find_packages` (441-491) -/

/-- `shared_prefix(candidate)` inside `nearest_subpackage`: zip the dotted
segments of `package` and `candidate` and take while equal, i.e. the longest
common segment-prefix.  Dotted module paths are modelled as segment lists. -/
def sharedPrefixSegs : List String → List String → List String
  | p :: ps, c :: cs => if p = c then p :: sharedPrefixSegs ps cs else []
  | _, _ => []

/-- One comparison step of Python's `max(l, key=len)`: keep the current
maximum unless the next element is strictly longer (so ties keep the first
maximal element). -/
def maxByLenStep (acc : Option (List String)) (x : List String) :
    Option (List String) :=
  match acc with
  | none => some x
  | some m => if m.length < x.length then some x else acc

/-- Python's `max(l, key=len)`: the first element of maximal length (`none`
on the empty list). -/
def maxByLen (l : List (List String)) : Option (List String) :=
  l.foldl maxByLenStep none

/-- Python's `s.endswith(suffixStr)`, computed on the character lists. -/
def strEndsWith (s suffixStr : String) : Bool :=
  List.isSuffixOf suffixStr.data s.data

/-- `SetupPy.nearest_subpackage(package, all_packages)`: the longest non-empty
shared segment-prefix of `package` with any member of `all_packages`, or
`package` itself when every shared prefix is empty. -/
def nearest_subpackage (package : List String) (allPackages : List (List String)) :
    List String :=
  match maxByLen ((allPackages.map (sharedPrefixSegs package)).filter
      (fun f => decide (f ≠ []))) with
  | some m => m
  | none => package

/-- The attribution step of `find_packages` pass 2 for one file: the file's
module is resolved to `nearest_subpackage`; a file housed exactly at the
resolved package records its bare filename, otherwise the path relative to
the resolved package (subdirectories preserved, joined with `/`). -/
def classifyFile (packages : List (List String)) (module : List String)
    (filename : String) : List String × String :=
  let submodule := nearest_subpackage module packages
  if submodule = module then
    (submodule, filename)
  else
    (submodule, String.intercalate "/" (module.drop submodule.length ++ [filename]))

/-- `SetupPy.find_packages` over the staged tree's file listing, with each
file given as (module = directory relative to the source root as segments,
filename).  Pass 1: every directory holding an `__init__.py` is a package
(namespace-package detection is the external classifier and not modelled).
Pass 2: every file that is not a source file claimed by a package is
attributed by `classifyFile`; the result lists the `(package, relative
name)` pairs the `resources` mapping accumulates. -/
def find_packages (files : List (List String × String)) :
    List (List String) × List (List String × String) :=
  let packages := dedupFirst ((files.filter (fun mf => mf.2 == "__init__.py")).map Prod.fst)
  let resourceFiles := files.filter
    (fun mf => !(strEndsWith mf.2 ".py" && decide (mf.1 ∈ packages)))
  (packages, resourceFiles.map (fun mf => classifyFile packages mf.1 mf.2))

/-! ## The build/publish phase of `SetupPy.execute` (lines 634-655) -/

/-- One expansion step of dependency reachability: a set of targets together
with every direct dependency of a member. -/
def expandOnce {n : Nat} (g : Graph n) (S : Finset (Fin n)) : Finset (Fin n) :=
  S ∪ S.biUnion (fun t => (g.dependencies t).toFinset)

/-- The targets reachable from `t` through original build-graph dependency
edges (reflexive-transitive closure, saturated after `n` expansion steps). -/
def reachSet {n : Nat} (g : Graph n) (t : Fin n) : Finset (Fin n) :=
  (expandOnce g)^[n] {t}

/-- Stable descending insertion by a numeric key: `x` is placed before the
first element of strictly smaller key, after earlier elements of equal key. -/
def insertByDesc {α : Type} (f : α → Nat) (x : α) : List α → List α
  | [] => [x]
  | y :: ys => if f x < f y then y :: insertByDesc f x ys else x :: y :: ys

/-- Stable sort by a numeric key, largest first. -/
def sortDesc {α : Type} (f : α → Nat) (l : List α) : List α :=
  l.foldr (insertByDesc f) []

/-- Modelled from the spec: `sort_targets` (from `pants.build_graph.build_graph`,
imported by the source but not itself under `src/`) topologically sorts the
created exported targets by the original build-graph dependency order, most
dependent first ("dependencies fully built/published before dependents" once
`execute` reverses it).  Realized as a stable sort by descending
dependency-closure size, which orders every pair related by reachability and
leaves unrelated pairs in input order. -/
def sort_targets {n : Nat} (g : Graph n) (created : List (Fin n)) : List (Fin n) :=
  sortDesc (fun t => (reachSet g t).card) created

/-- The order in which `SetupPy.execute` invokes the build/publish step:
`reversed(sort_targets(created))`. -/
def processingOrder {n : Nat} (g : Graph n) (created : List (Fin n)) : List (Fin n) :=
  (sort_targets g created).reverse

/-! ## Concrete graphs used to witness and refute the claims -/

/-- Two exported siblings `X = 0`, `Y = 1` in the BUILD family at path `a`
both depending on the internal target `o = 2` in the same family: the
single ambiguous-ownership configuration of the source docstring. -/
def gc1 : Graph 3 where
  dependencies := ![[2], [2], []]
  spec_path := ![["a"], ["a"], ["a"]]
  is_original := fun _ => true
  derived_from := id
  is_exported := ![true, true, false]
  requires_export := fun _ => true

/-- Internal target `o = 0` at path `a/b` reachable from the exported
sibling `X = 1` (same path `a/b`) and from the exported ancestor `Y = 2`
(coarser path `a`): two candidate owners at different ancestor depths. -/
def gc1b : Graph 3 where
  dependencies := ![[], [0], [0]]
  spec_path := ![["a", "b"], ["a", "b"], ["a"]]
  is_original := fun _ => true
  derived_from := id
  is_exported := ![false, true, true]
  requires_export := fun _ => true

/-- Exported root `t = 0` at path `t` depends on internal `A = 1` at path
`a`, which depends on internal `B = 2` at path `b`.  Exported siblings
`X = 3`, `Y = 4` at path `a` both reach `A`, making `A`'s ownership
ambiguous, while `B` has no owner at all. -/
def gc5 : Graph 5 where
  dependencies := ![[1], [2], [], [1], [1]]
  spec_path := ![["t"], ["a"], ["b"], ["a"], ["a"]]
  is_original := fun _ => true
  derived_from := id
  is_exported := ![true, false, false, true, true]
  requires_export := fun _ => true

/-- Exported `t = 0` depending on an internal export-requiring target
`o = 1` in a BUILD family (path `b`) containing no exported target: the
no-owner configuration. -/
def g5w : Graph 2 where
  dependencies := ![[1], []]
  spec_path := ![["a"], ["b"]]
  is_original := fun _ => true
  derived_from := id
  is_exported := ![true, false]
  requires_export := fun _ => true

/-- Exported `A = 0` (path `a`) and `B = 1` (path `b`) both depend on the
internal target `C = 2` in `B`'s BUILD family, so `B` owns `C` and appears
in `A`'s reduced dependency set although `A` never depends on `B`. -/
def gc9 : Graph 3 where
  dependencies := ![[2], [2], []]
  spec_path := ![["a"], ["b"], ["b"]]
  is_original := fun _ => true
  derived_from := id
  is_exported := ![true, true, false]
  requires_export := fun _ => true

/-- A dependency cycle: targets `0` and `1` depend on each other. -/
def gcyc : Graph 2 where
  dependencies := ![[1], [0]]
  spec_path := ![["a"], ["a"]]
  is_original := fun _ => true
  derived_from := id
  is_exported := ![true, false]
  requires_export := fun _ => true

/-- A reduced dependency list whose exported members provide the package
names `b` then `a`, in that first-occurrence order. -/
def c6ExDeps : List STarget :=
  [.pythonTarget (some "b"), .pythonTarget (some "a")]

/-- Staged-tree listing with packages `a` and `a.b` and a resource file at
`a/b/c/data.txt`. -/
def c7ExFiles : List (List String × String) :=
  [(["a"], "__init__.py"), (["a", "b"], "__init__.py"), (["a", "b", "c"], "data.txt")]

/-- Staged-tree listing whose only package is `a.b.x` while a resource file
lives at `a/b/data.txt`: its attribution key `a.b` is not a package. -/
def c8ExFiles : List (List String × String) :=
  [(["a", "b", "x"], "__init__.py"), (["a", "b"], "data.txt")]

/-! ## Ordered-set helper lemmas -/

lemma mem_osAdd {α : Type} [DecidableEq α] {s : List α} {x y : α} :
    y ∈ osAdd s x ↔ y = x ∨ y ∈ s := by
  by_cases hx : x ∈ s
  · simp only [osAdd, if_pos hx]
    constructor
    · exact Or.inr
    · rintro (rfl | h)
      · exact hx
      · exact h
  · simp [osAdd, if_neg hx, or_comm]

lemma nodup_osAdd {α : Type} [DecidableEq α] {s : List α} {x : α} (h : s.Nodup) :
    (osAdd s x).Nodup := by
  by_cases hx : x ∈ s
  · simpa [osAdd, if_pos hx] using h
  · rw [osAdd, if_neg hx]
    refine List.Nodup.append h (List.nodup_singleton x) ?_
    intro a ha hb
    rw [List.mem_singleton] at hb
    subst hb
    exact hx ha

lemma mem_foldl_osAdd {α : Type} [DecidableEq α] (l : List α) :
    ∀ (acc : List α) (y : α), y ∈ l.foldl osAdd acc ↔ y ∈ acc ∨ y ∈ l := by
  induction l with
  | nil => simp
  | cons a l ih =>
    intro acc y
    rw [List.foldl_cons, ih, mem_osAdd, List.mem_cons]
    tauto

lemma nodup_foldl_osAdd {α : Type} [DecidableEq α] (l : List α) :
    ∀ acc : List α, acc.Nodup → (l.foldl osAdd acc).Nodup := by
  induction l with
  | nil => intro acc h; exact h
  | cons a l ih => intro acc h; exact ih (osAdd acc a) (nodup_osAdd h)

lemma mem_dedupFirst {α : Type} [DecidableEq α] {l : List α} {y : α} :
    y ∈ dedupFirst l ↔ y ∈ l := by
  simp [dedupFirst, mem_foldl_osAdd]

lemma nodup_dedupFirst {α : Type} [DecidableEq α] (l : List α) :
    (dedupFirst l).Nodup :=
  nodup_foldl_osAdd l [] List.nodup_nil

/-! ## Error-shape lemmas for ownership resolution -/

lemma resolveOwnerStep_ne_unExported {n : Nat} (g : Graph n) (o : Fin n) :
    resolveOwnerStep g o ≠ .error .unExported := by
  unfold resolveOwnerStep
  split
  · simp
  · split <;> simp

lemma resolveOwnersAux_ne_unExported {n : Nat} (g : Graph n) :
    ∀ (l : List (Fin n)) (acc : List (Fin n × Fin n)),
      resolveOwnersAux g l acc ≠ .error .unExported := by
  intro l
  induction l with
  | nil => intro acc; simp [resolveOwnersAux]
  | cons o rest ih =>
    intro acc
    unfold resolveOwnersAux
    split
    · cases hstep : resolveOwnerStep g o with
      | error e =>
        intro hcontra
        injection hcontra with he
        subst he
        exact resolveOwnerStep_ne_unExported g o hstep
      | ok owner => exact ih _
    · exact ih _

lemma resolveOwnersAux_all_ok {n : Nat} (g : Graph n) :
    ∀ (l₁ : List (Fin n)) (acc : List (Fin n × Fin n)),
      (∀ o' ∈ l₁, (g.requires_export o' && !g.is_exported o') = true →
        ∃ w, resolveOwnerStep g o' = .ok w) →
      ∀ l₂, ∃ acc', resolveOwnersAux g (l₁ ++ l₂) acc = resolveOwnersAux g l₂ acc' := by
  intro l₁
  induction l₁ with
  | nil => intro acc _ l₂; exact ⟨acc, rfl⟩
  | cons o l₁ ih =>
    intro acc hok l₂
    rw [List.cons_append]
    simp only [resolveOwnersAux]
    by_cases hc : (g.requires_export o && !g.is_exported o) = true
    · obtain ⟨w, hw⟩ := hok o (List.mem_cons_self o l₁) hc
      rw [if_pos hc, hw]
      exact ih (acc ++ [(o, w)]) (fun o' h h' => hok o' (List.mem_cons_of_mem o h) h') l₂
    · rw [if_neg hc]
      exact ih acc (fun o' h h' => hok o' (List.mem_cons_of_mem o h) h') l₂

/-! ## Claim C1 -/

lemma mem_targetsAtPath {n : Nat} (g : Graph n) {p : List String} {t : Fin n} :
    t ∈ targetsAtPath g p ↔ g.spec_path t = p := by
  simp [targetsAtPath, List.mem_filter, List.mem_finRange]

lemma nodup_targetsAtPath {n : Nat} (g : Graph n) (p : List String) :
    (targetsAtPath g p).Nodup :=
  (List.nodup_finRange n).filter _

lemma specPathChain_nodup (p : List String) : (specPathChain p).Nodup := by
  unfold specPathChain
  refine List.Nodup.map_on ?_ (List.nodup_reverse.mpr (List.nodup_range _))
  intro i hi j hj hij
  rw [List.mem_reverse, List.mem_range] at hi hj
  have h1 : (p.take i).length = i := by rw [List.length_take]; omega
  have h2 : (p.take j).length = j := by rw [List.length_take]; omega
  rw [← h1, ← h2, hij]

lemma flatMap_targetsAtPath_nodup {n : Nat} (g : Graph n) :
    ∀ (chain : List (List String)), chain.Nodup →
      (chain.flatMap (targetsAtPath g)).Nodup := by
  intro chain
  induction chain with
  | nil => intro _; simp
  | cons q qs ih =>
    intro h
    rw [List.nodup_cons] at h
    rw [List.flatMap_cons]
    refine List.Nodup.append (nodup_targetsAtPath g q) (ih h.2) ?_
    intro a ha hb
    rw [mem_targetsAtPath] at ha
    rw [List.mem_flatMap] at hb
    obtain ⟨q', hq', ha'⟩ := hb
    rw [mem_targetsAtPath] at ha'
    have hqq : q = q' := ha.symm.trans ha'
    exact h.1 (hqq ▸ hq')

/-- The candidate-owner list never repeats a target: lineage path groups are
pairwise distinct and each group enumerates distinct registered targets, so
the list is exactly the Python candidate set with insertion order kept. -/
lemma candidateOwners_nodup {n : Nat} (g : Graph n) (o : Fin n) :
    (candidateOwners g o).Nodup := by
  unfold candidateOwners siblingsAndAncestors
  exact (flatMap_targetsAtPath_nodup g _ (specPathChain_nodup _)).filter _

/-- The deterministic pipeline step is the admissible pop that removes the
first lineage-enumeration candidate. -/
lemma resolveOwnerStep_eq_first {n : Nat} (g : Graph n) (o c₀ : Fin n)
    (rest : List (Fin n)) (h : candidateOwners g o = c₀ :: rest) :
    resolveOwnerStep g o = resolveOwnerStepFrom g o c₀ := by
  simp only [resolveOwnerStep, resolveOwnerStepFrom, h, List.erase_cons_head]

/-- C1 counterexample: in `gc1b` the internal target `0` has the candidate
owners `[1, 2]` at pairwise distinct ancestor depths (sibling `1` at `a/b`,
ancestor `2` at `a`).  The source draws the owner from this candidate set
with `set.pop()`, which may return any element; popping the admissible
candidate `2` selects `2` as the owner without error, refuting the claim
that the nearest candidate found first in the lineage enumeration (`1`) is
selected. -/
theorem c1_counterexample :
    candidateOwners gc1b 0 = [1, 2]
    ∧ gc1b.spec_path 1 ≠ gc1b.spec_path 2
    ∧ (2 : Fin 3) ∈ candidateOwners gc1b 0
    ∧ resolveOwnerStepFrom gc1b 0 2 = .ok 2
    ∧ (2 : Fin 3) ≠ 1 := by
  decide

/-- C1 (amended): in pass 2 of `reduced_dependencies`, for an ownable
export-requiring target with more than one exported-ancestor candidate, the
first-found owner is an arbitrary candidate removed from the unordered
candidate set by `set.pop()`; whichever candidate is popped,
`AmbiguousOwnerError` is raised exactly when two or more candidates (the
popped owner among them) share the popped owner's address path, and when all
candidates lie at pairwise distinct address paths (different ancestor
depths) no error is raised and the popped candidate — not necessarily the
nearest one in the lineage enumeration — is selected as the owner. -/
theorem c1_ambiguity_tiebreak_amended {n : Nat} (g : Graph n) (o owner : Fin n)
    (hreq : g.requires_export o = true) (hexp : g.is_exported o = false)
    (hmem : owner ∈ candidateOwners g o)
    (hlen : 2 ≤ (candidateOwners g o).length) :
    ((resolveOwnerStepFrom g o owner = .error (.ambiguousOwner o)) ↔
      2 ≤ ((candidateOwners g o).filter
            (fun c => g.spec_path c = g.spec_path owner)).length)
    ∧ ((candidateOwners g o).Pairwise (fun a b => g.spec_path a ≠ g.spec_path b) →
        resolveOwnerStepFrom g o owner = .ok owner) := by
  have hnd := candidateOwners_nodup g o
  have hperm : List.Perm (candidateOwners g o)
      (owner :: (candidateOwners g o).erase owner) :=
    List.perm_cons_erase hmem
  have hcount : ((candidateOwners g o).filter
        (fun c => g.spec_path c = g.spec_path owner)).length
      = (((candidateOwners g o).erase owner).filter
          (fun c => g.spec_path c = g.spec_path owner)).length + 1 := by
    rw [(hperm.filter (fun c => decide (g.spec_path c = g.spec_path owner))).length_eq]
    rw [List.filter_cons]
    simp
  constructor
  · unfold resolveOwnerStepFrom
    by_cases hany : (((candidateOwners g o).erase owner).any
        (fun c => decide (g.spec_path c = g.spec_path owner))) = true
    · rw [if_pos hany]
      constructor
      · intro _
        rw [hcount]
        rw [List.any_eq_true] at hany
        obtain ⟨c, hc, hpc⟩ := hany
        have hcf : c ∈ ((candidateOwners g o).erase owner).filter
            (fun c => decide (g.spec_path c = g.spec_path owner)) :=
          List.mem_filter.mpr ⟨hc, hpc⟩
        have hpos := List.length_pos.mpr (List.ne_nil_of_mem hcf)
        omega
      · intro _
        rfl
    · rw [if_neg hany]
      constructor
      · intro hcontra
        exact absurd hcontra (by simp)
      · intro hge
        exfalso
        rw [hcount] at hge
        have hne : ((candidateOwners g o).erase owner).filter
            (fun c => decide (g.spec_path c = g.spec_path owner)) ≠ [] := by
          intro hnil
          rw [hnil] at hge
          simp at hge
        obtain ⟨c, hc⟩ := List.exists_mem_of_ne_nil _ hne
        rw [List.mem_filter] at hc
        exact hany (List.any_eq_true.mpr ⟨c, hc.1, hc.2⟩)
  · intro hpw
    unfold resolveOwnerStepFrom
    rw [if_neg ?hno]
    case hno =>
      intro hany
      rw [List.any_eq_true] at hany
      obtain ⟨c, hc, hpc⟩ := hany
      rw [decide_eq_true_eq] at hpc
      obtain ⟨hco, hcl⟩ := (List.Nodup.mem_erase_iff hnd).mp hc
      have hsymm : Symmetric (fun a b : Fin n => g.spec_path a ≠ g.spec_path b) :=
        fun a b h e => h e.symm
      exact (List.Pairwise.forall hsymm hpw hcl hmem hco) hpc

/-- C1 witness: in `gc1` both candidates for target `2` sit at path `a`, so
every admissible pop (here: candidate `0`) raises `AmbiguousOwnerError`. -/
theorem c1_ambiguity_tiebreak_amended_witness :
    resolveOwnerStepFrom gc1 2 0 = .error (.ambiguousOwner 2) :=
  ((c1_ambiguity_tiebreak_amended gc1 2 0 (by decide) (by decide) (by decide)
    (by decide)).1).mpr (by decide)

/-! ## Claim C2 -/

/-- C2: a successful `reduced_dependencies exported_target` never contains the
exported target itself, and every member of the result is an original
(pre-codegen) target. -/
theorem c2_excludes_self_and_original {n : Nat} (g : Graph n) (t : Fin n)
    (res : List (Fin n)) (h : reduced_dependencies g t = .ok res) :
    t ∉ res ∧ ∀ d ∈ res, g.is_original d = true := by
  unfold reduced_dependencies at h
  by_cases he : g.is_exported t = true
  · simp only [he, Bool.not_true, Bool.false_eq_true, if_false] at h
    cases hres : resolveOwnersAux g (ownedList g t) [] with
    | error e =>
      rw [hres] at h
      exact absurd h (by simp)
    | ok pairs =>
      rw [hres] at h
      simp only [Except.ok.injEq] at h
      subst h
      constructor
      · intro hmem
        rw [mem_dedupFirst, List.mem_filter] at hmem
        obtain ⟨hmem1, _⟩ := hmem
        rw [mem_dedupFirst] at hmem1
        simp only [List.mem_map, List.mem_filter] at hmem1
        obtain ⟨c, ⟨hc, hct⟩, hfc⟩ := hmem1
        have hcne : c ≠ t := by simpa using hct
        cases how : ownerOf pairs c with
        | none =>
          rw [how] at hfc
          exact hcne hfc
        | some w =>
          rw [how] at hfc
          have hfc' : (if (w == t) = true then c else w) = t := hfc
          by_cases hw : (w == t) = true
          · rw [if_pos hw] at hfc'
            exact hcne hfc'
          · rw [if_neg hw] at hfc'
            exact absurd hfc' (by simpa using hw)
      · intro d hd
        rw [mem_dedupFirst, List.mem_filter] at hd
        exact hd.2
  · simp only [Bool.not_eq_true] at he
    simp [he] at h

/-- C2 witness: on `gc9`, `reduced_dependencies` of the exported target `0`
succeeds with `[1]`, which excludes `0` and holds only original targets. -/
theorem c2_excludes_self_and_original_witness :
    (0 : Fin 3) ∉ ([1] : List (Fin 3))
      ∧ ∀ d ∈ ([1] : List (Fin 3)), gc9.is_original d = true :=
  c2_excludes_self_and_original gc9 0 [1] (by decide)

/-! ## Claim C3 -/

/-- C3: `reduced_dependencies` is deterministic, hence idempotent — two
computations over the same unchanged graph produce the same ordered result
(the embedding is a pure function of the graph; `OrderedDict`/`OrderedSet`
fix every iteration order the algorithm consumes). -/
theorem c3_deterministic {n : Nat} (g : Graph n) (t : Fin n)
    (r₁ r₂ : Except (CalcError n) (List (Fin n)))
    (h₁ : reduced_dependencies g t = r₁) (h₂ : reduced_dependencies g t = r₂) :
    r₁ = r₂ :=
  h₁.symm.trans h₂

/-- C3 witness: two runs on `gc9` both return `[1]`. -/
theorem c3_deterministic_witness :
    (Except.ok [1] : Except (CalcError 3) (List (Fin 3))) = Except.ok [1] :=
  c3_deterministic gc9 0 (Except.ok [1]) (Except.ok [1]) (by decide) (by decide)

/-! ## Claim C4 -/

/-- C4: `reduced_dependencies` fails with `UnExportedError` if and only if
the target it is called on is not exported; the check precedes ownership
resolution (the definition returns before touching passes 1-3, and no later
pass can produce `UnExportedError`). -/
theorem c4_unexported_iff {n : Nat} (g : Graph n) (t : Fin n) :
    reduced_dependencies g t = .error .unExported ↔ g.is_exported t = false := by
  constructor
  · intro h
    by_cases he : g.is_exported t = true
    · exfalso
      unfold reduced_dependencies at h
      simp only [he, Bool.not_true, Bool.false_eq_true, if_false] at h
      cases hres : resolveOwnersAux g (ownedList g t) [] with
      | error e =>
        rw [hres] at h
        have h' : (Except.error e : Except (CalcError n) (List (Fin n)))
            = Except.error CalcError.unExported := h
        injection h' with he
        subst he
        exact resolveOwnersAux_ne_unExported g (ownedList g t) [] hres
      | ok pairs =>
        rw [hres] at h
        simp at h
    · rwa [Bool.not_eq_true] at he
  · intro h
    unfold reduced_dependencies
    rw [h]
    rfl

/-! ## Claim C5 -/

/-- C5 counterexample: in `gc5`, target `2` is provisionally collected,
requires export, is unexported and has no candidate owner, yet
`reduced_dependencies gc5 0` raises `AmbiguousOwnerError` (for the
earlier-collected target `1`), not `NoOwnerError`. -/
theorem c5_counterexample :
    (2 : Fin 5) ∈ ownedList gc5 0
    ∧ gc5.requires_export 2 = true
    ∧ gc5.is_exported 2 = false
    ∧ candidateOwners gc5 2 = []
    ∧ reduced_dependencies gc5 0 = .error (.ambiguousOwner 1)
    ∧ ∀ e : Fin 5, reduced_dependencies gc5 0 ≠ .error (.noOwner e) := by
  decide

/-- C5 (amended): if a provisionally collected target requires export, is not
exported, and has no exported ancestor-lineage candidate whose closure
contains it, `reduced_dependencies` fails — and it fails with `NoOwnerError`
for that target provided every earlier-collected ownable target resolves
successfully (otherwise the earlier target's error is raised first). -/
theorem c5_no_owner_amended {n : Nat} (g : Graph n) (t o : Fin n)
    (l₁ l₂ : List (Fin n))
    (hex : g.is_exported t = true)
    (hsplit : ownedList g t = l₁ ++ o :: l₂)
    (hreq : g.requires_export o = true)
    (hnexp : g.is_exported o = false)
    (hcand : candidateOwners g o = [])
    (hprev : ∀ o' ∈ l₁, (g.requires_export o' && !g.is_exported o') = true →
      ∃ w, resolveOwnerStep g o' = .ok w) :
    reduced_dependencies g t = .error (.noOwner o) := by
  obtain ⟨acc', hacc⟩ := resolveOwnersAux_all_ok g l₁ [] hprev (o :: l₂)
  have hro : resolveOwnersAux g (ownedList g t) [] = .error (.noOwner o) := by
    rw [hsplit, hacc]
    simp only [resolveOwnersAux]
    rw [if_pos (by rw [hreq, hnexp]; rfl)]
    have hstep : resolveOwnerStep g o = .error (.noOwner o) := by
      unfold resolveOwnerStep
      rw [hcand]
    rw [hstep]
  unfold reduced_dependencies
  simp only [hex, Bool.not_true, Bool.false_eq_true, if_false]
  rw [hro]

/-- C5 witness: in `g5w`, the ownerless internal target `1` is collected
after the exported root `0` (which needs no resolution), and the computation
raises `NoOwnerError` for it. -/
theorem c5_no_owner_amended_witness :
    reduced_dependencies g5w 0 = .error (.noOwner 1) :=
  c5_no_owner_amended g5w 0 1 [0] [] (by decide) (by decide) (by decide)
    (by decide) (by decide) (by decide)

/-! ## Claim C6 -/

lemma install_requires_aux : ∀ (deps : List STarget) (acc : List String),
    deps.foldl (fun acc d =>
      match d with
      | .requirementLib rs => rs.foldl osAdd acc
      | .pythonTarget (some k) => osAdd acc k
      | .pythonTarget none => acc
      | .resourcesTarget => acc) acc
    = (deps.flatMap contribStrings).foldl osAdd acc := by
  intro deps
  induction deps with
  | nil => intro acc; rfl
  | cons d deps ih =>
    intro acc
    rw [List.foldl_cons, ih, List.flatMap_cons, List.foldl_append]
    congr 1
    cases d with
    | requirementLib rs => rfl
    | pythonTarget p => cases p <;> rfl
    | resourcesTarget => rfl

/-- C6 counterexample: a reduced dependency list providing packages `b` then
`a` yields `install_requires = ["b", "a"]`, which is not sorted although it
does consist of the members' contributions. -/
theorem c6_counterexample :
    install_requires c6ExDeps = ["b", "a"]
    ∧ ¬ List.Sorted (fun a b => a ≤ b) (install_requires c6ExDeps) := by
  refine ⟨by decide, ?_⟩
  intro h
  rw [show install_requires c6ExDeps = ["b", "a"] from by decide] at h
  have hba : ("b" : String) ≤ "a" := (List.sorted_cons.mp h).1 "a" (by simp)
  rw [String.le_iff_toList_le] at hba
  revert hba
  decide

/-- C6 (amended): the `install_requires` keyword written by `write_setup` is
the duplicate-free list, in first-occurrence order over the reduced
dependency set (not sorted), of the third-party requirement strings of
requirement-library members plus the package names of exported members. -/
theorem c6_install_requires_amended (deps : List STarget) :
    install_requires deps = dedupFirst (deps.flatMap contribStrings)
    ∧ (install_requires deps).Nodup
    ∧ ∀ s, s ∈ install_requires deps ↔ ∃ d ∈ deps, s ∈ contribStrings d := by
  have h1 : install_requires deps = dedupFirst (deps.flatMap contribStrings) :=
    install_requires_aux deps []
  refine ⟨h1, ?_, ?_⟩
  · rw [h1]
    exact nodup_dedupFirst _
  · intro s
    rw [h1, mem_dedupFirst, List.mem_flatMap]

/-! ## Claims C7 and C8: package classification -/

lemma maxByLen_go : ∀ (l : List (List String)) (m : List String),
    ∃ m', l.foldl maxByLenStep (some m) = some m'
      ∧ (m' = m ∨ m' ∈ l)
      ∧ m.length ≤ m'.length
      ∧ ∀ y ∈ l, y.length ≤ m'.length := by
  intro l
  induction l with
  | nil => intro m; exact ⟨m, rfl, Or.inl rfl, le_rfl, by simp⟩
  | cons x l ih =>
    intro m
    rw [List.foldl_cons]
    have hstep : maxByLenStep (some m) x
        = if m.length < x.length then some x else some m := rfl
    rw [hstep]
    by_cases hlt : m.length < x.length
    · rw [if_pos hlt]
      obtain ⟨m', heq, hmem, hlen, hall⟩ := ih x
      refine ⟨m', heq, ?_, le_trans hlt.le hlen, ?_⟩
      · rcases hmem with rfl | hm
        · exact Or.inr (List.mem_cons_self _ _)
        · exact Or.inr (List.mem_cons_of_mem _ hm)
      · intro y hy
        rcases List.mem_cons.mp hy with rfl | hy
        · exact hlen
        · exact hall y hy
    · rw [if_neg hlt]
      obtain ⟨m', heq, hmem, hlen, hall⟩ := ih m
      refine ⟨m', heq, ?_, hlen, ?_⟩
      · rcases hmem with rfl | hm
        · exact Or.inl rfl
        · exact Or.inr (List.mem_cons_of_mem _ hm)
      · intro y hy
        rcases List.mem_cons.mp hy with rfl | hy
        · exact le_trans (Nat.le_of_not_lt hlt) hlen
        · exact hall y hy

lemma maxByLen_spec {l : List (List String)} (hne : l ≠ []) :
    ∃ m, maxByLen l = some m ∧ m ∈ l ∧ ∀ y ∈ l, y.length ≤ m.length := by
  obtain ⟨x, xs, rfl⟩ := List.exists_cons_of_ne_nil hne
  obtain ⟨m', heq, hmem, hlen, hall⟩ := maxByLen_go xs x
  refine ⟨m', ?_, ?_, ?_⟩
  · unfold maxByLen
    rw [List.foldl_cons]
    exact heq
  · rcases hmem with rfl | hm
    · exact List.mem_cons_self _ _
    · exact List.mem_cons_of_mem _ hm
  · intro y hy
    rcases List.mem_cons.mp hy with rfl | hy
    · exact hlen
    · exact hall y hy

lemma sharedPrefixSegs_front : ∀ (a b : List String), sharedPrefixSegs a b <+: a := by
  intro a
  induction a with
  | nil => intro b; cases b <;> exact List.nil_prefix
  | cons p ps ih =>
    intro b
    cases b with
    | nil => exact List.nil_prefix
    | cons c cs =>
      by_cases hpc : p = c
      · simp only [sharedPrefixSegs, if_pos hpc]
        rw [List.cons_prefix_cons]
        exact ⟨rfl, ih cs⟩
      · simp only [sharedPrefixSegs, if_neg hpc]
        exact List.nil_prefix

lemma maxByLen_mem {l : List (List String)} {m : List String}
    (h : maxByLen l = some m) : m ∈ l := by
  cases l with
  | nil => exact absurd h (by simp [maxByLen])
  | cons x xs =>
    obtain ⟨m', hm', hmem, _⟩ := maxByLen_spec (l := x :: xs) (by simp)
    rw [h] at hm'
    injection hm' with he
    exact he ▸ hmem

lemma nearest_subpackage_front (module : List String) (packages : List (List String)) :
    nearest_subpackage module packages <+: module := by
  unfold nearest_subpackage
  cases hmax : maxByLen ((packages.map (sharedPrefixSegs module)).filter
      (fun f => decide (f ≠ []))) with
  | none => exact List.prefix_refl module
  | some m =>
    have hm := maxByLen_mem hmax
    rw [List.mem_filter] at hm
    obtain ⟨q, _, rfl⟩ := List.mem_map.mp hm.1
    exact sharedPrefixSegs_front module q

lemma classifyFile_fst (pkgs : List (List String)) (m : List String) (f : String) :
    (classifyFile pkgs m f).1 = nearest_subpackage m pkgs := by
  simp only [classifyFile]
  split <;> rfl

/-- C7: non-source files are attributed through `nearest_subpackage`, which
returns the module itself when no package shares a non-empty dotted prefix
with it, and otherwise a longest non-empty shared dotted prefix with some
package (maximal over all packages); and on the staged listing with packages
`a` and `a.b`, the resource file at `a/b/c/data.txt` is attributed to
package `a.b` with relative path `c/data.txt`. -/
theorem c7_nearest_package_attribution :
    (∀ (module : List String) (packages : List (List String)),
      ((∀ p ∈ packages, sharedPrefixSegs module p = []) →
        nearest_subpackage module packages = module)
      ∧ ((∃ p ∈ packages, sharedPrefixSegs module p ≠ []) →
          (∃ p ∈ packages,
            nearest_subpackage module packages = sharedPrefixSegs module p
            ∧ sharedPrefixSegs module p ≠ [])
          ∧ ∀ q ∈ packages,
              (sharedPrefixSegs module q).length
                ≤ (nearest_subpackage module packages).length))
    ∧ find_packages c7ExFiles = ([["a"], ["a", "b"]], [(["a", "b"], "c/data.txt")]) := by
  constructor
  · intro module packages
    constructor
    · intro hall
      have hnil : (packages.map (sharedPrefixSegs module)).filter
          (fun f => decide (f ≠ [])) = [] := by
        rw [List.filter_eq_nil_iff]
        intro a ha
        obtain ⟨p, hp, rfl⟩ := List.mem_map.mp ha
        simp [hall p hp]
      unfold nearest_subpackage
      rw [hnil]
      rfl
    · intro hex
      obtain ⟨p, hp, hne⟩ := hex
      have hmem : sharedPrefixSegs module p ∈
          (packages.map (sharedPrefixSegs module)).filter (fun f => decide (f ≠ [])) := by
        rw [List.mem_filter]
        exact ⟨List.mem_map_of_mem _ hp, by simpa using hne⟩
      obtain ⟨m, hmax, hm, hmaxlen⟩ := maxByLen_spec (List.ne_nil_of_mem hmem)
      have hnear : nearest_subpackage module packages = m := by
        unfold nearest_subpackage
        rw [hmax]
      rw [List.mem_filter] at hm
      obtain ⟨q, hq, rfl⟩ := List.mem_map.mp hm.1
      constructor
      · exact ⟨q, hq, hnear, by simpa using hm.2⟩
      · intro r hr
        rw [hnear]
        by_cases hrnil : sharedPrefixSegs module r = []
        · simp [hrnil]
        · refine hmaxlen _ ?_
          rw [List.mem_filter]
          exact ⟨List.mem_map_of_mem _ hr, by simpa using hrnil⟩
  · decide

/-- C7 witness: the general attribution characterization applied at packages
`a`, `a.b` and the module `a.b.c` of the example resource file. -/
theorem c7_nearest_package_attribution_witness :
    (∃ p ∈ [["a"], ["a", "b"]],
      nearest_subpackage ["a", "b", "c"] [["a"], ["a", "b"]]
        = sharedPrefixSegs ["a", "b", "c"] p
      ∧ sharedPrefixSegs ["a", "b", "c"] p ≠ [])
    ∧ ∀ q ∈ [["a"], ["a", "b"]],
        (sharedPrefixSegs ["a", "b", "c"] q).length
          ≤ (nearest_subpackage ["a", "b", "c"] [["a"], ["a", "b"]]).length :=
  ((c7_nearest_package_attribution.1 ["a", "b", "c"] [["a"], ["a", "b"]]).2)
    ⟨["a"], by decide, by decide⟩

/-- C8 counterexample: with the single package `a.b.x`, the resource file at
`a/b/data.txt` is recorded under the key `a.b`, which is not a detected
package. -/
theorem c8_counterexample :
    (["a", "b"], "data.txt") ∈ (find_packages c8ExFiles).2
    ∧ ["a", "b"] ∉ (find_packages c8ExFiles).1 := by
  decide

/-- C8 (amended): every key of the resources mapping is the
`nearest_subpackage` attribution target of some classified file — a dotted
path prefix of that file's module path — but need not itself belong to the
detected package set. -/
theorem c8_resource_keys_amended (files : List (List String × String))
    (k : List String) (r : String) (h : (k, r) ∈ (find_packages files).2) :
    ∃ mf ∈ files, k <+: mf.1 := by
  simp only [find_packages] at h
  obtain ⟨mf, hmf, heq⟩ := List.mem_map.mp h
  refine ⟨mf, (List.mem_filter.mp hmf).1, ?_⟩
  have hk : k = (classifyFile (dedupFirst ((files.filter
      (fun mf => mf.2 == "__init__.py")).map Prod.fst)) mf.1 mf.2).1 :=
    (congrArg Prod.fst heq).symm
  rw [hk, classifyFile_fst]
  exact nearest_subpackage_front _ _

/-- C8 witness: the amended key property at the counterexample listing. -/
theorem c8_resource_keys_amended_witness :
    ∃ mf ∈ c8ExFiles, ["a", "b"] <+: mf.1 :=
  c8_resource_keys_amended c8ExFiles ["a", "b"] "data.txt" (by decide)

/-! ## Claim C9: build/publish ordering -/

lemma subset_expandOnce {n : Nat} (g : Graph n) (S : Finset (Fin n)) :
    S ⊆ expandOnce g S :=
  Finset.subset_union_left

lemma expandOnce_mono {n : Nat} (g : Graph n) {S T : Finset (Fin n)} (h : S ⊆ T) :
    expandOnce g S ⊆ expandOnce g T :=
  Finset.union_subset_union h (Finset.biUnion_subset_biUnion_of_subset_left _ h)

lemma iterate_expand_step {n : Nat} (g : Graph n) (t : Fin n) (k : Nat) :
    (expandOnce g)^[k] {t} ⊆ (expandOnce g)^[k + 1] {t} := by
  rw [Function.iterate_succ_apply']
  exact subset_expandOnce g _

lemma iterate_expand_mono {n : Nat} (g : Graph n) (t : Fin n) {i j : Nat} (h : i ≤ j) :
    (expandOnce g)^[i] {t} ⊆ (expandOnce g)^[j] {t} := by
  induction j, h using Nat.le_induction with
  | base => exact subset_rfl
  | succ j _ ih => exact ih.trans (iterate_expand_step g t j)

lemma iterate_card_grow {n : Nat} (g : Graph n) (t : Fin n) :
    ∀ k, (∀ j < k, (expandOnce g)^[j + 1] {t} ≠ (expandOnce g)^[j] {t}) →
      k + 1 ≤ ((expandOnce g)^[k] {t}).card := by
  intro k
  induction k with
  | zero => intro _; simp
  | succ k ih =>
    intro h
    have h1 : k + 1 ≤ ((expandOnce g)^[k] {t}).card :=
      ih (fun j hj => h j (Nat.lt_succ_of_lt hj))
    have hne : (expandOnce g)^[k + 1] {t} ≠ (expandOnce g)^[k] {t} :=
      h k (Nat.lt_succ_self k)
    have hss : (expandOnce g)^[k] {t} ⊂ (expandOnce g)^[k + 1] {t} :=
      Finset.ssubset_def.mpr ⟨iterate_expand_step g t k,
        fun hsub => hne (le_antisymm hsub (iterate_expand_step g t k))⟩
    have := Finset.card_lt_card hss
    omega

lemma reachSet_fixed {n : Nat} (g : Graph n) (t : Fin n) :
    expandOnce g (reachSet g t) = reachSet g t := by
  have hex : ∃ j, j < n ∧ (expandOnce g)^[j + 1] {t} = (expandOnce g)^[j] {t} := by
    by_contra hc
    push_neg at hc
    have hgrow := iterate_card_grow g t n (fun j hj => hc j hj)
    have hle : ((expandOnce g)^[n] {t}).card ≤ n := by
      refine le_trans (Finset.card_le_univ _) ?_
      simp
    omega
  obtain ⟨j, hj, hfix⟩ := hex
  have hprop : ∀ m, (expandOnce g)^[j + m] {t} = (expandOnce g)^[j] {t} := by
    intro m
    induction m with
    | zero => rfl
    | succ m ih =>
      rw [show j + (m + 1) = (j + m) + 1 from rfl, Function.iterate_succ_apply', ih]
      exact (Function.iterate_succ_apply' (expandOnce g) j {t}).symm.trans hfix
  have hn : reachSet g t = (expandOnce g)^[j] {t} := by
    have h1 : (expandOnce g)^[n] {t} = (expandOnce g)^[j + (n - j)] {t} := by
      rw [Nat.add_sub_cancel' hj.le]
    unfold reachSet
    rw [h1]
    exact hprop (n - j)
  calc expandOnce g (reachSet g t)
      = (expandOnce g)^[j + 1] {t} := by
        rw [hn, Function.iterate_succ_apply']
    _ = (expandOnce g)^[j] {t} := hfix
    _ = reachSet g t := hn.symm

lemma mem_reachSet_self {n : Nat} (g : Graph n) (t : Fin n) : t ∈ reachSet g t := by
  have h0 : t ∈ (expandOnce g)^[0] {t} := Finset.mem_singleton_self t
  exact iterate_expand_mono g t (Nat.zero_le n) h0

lemma reachSet_closed {n : Nat} (g : Graph n) {t a b : Fin n}
    (ha : a ∈ reachSet g t) (hb : b ∈ g.dependencies a) : b ∈ reachSet g t := by
  rw [← reachSet_fixed g t]
  apply Finset.mem_union_right
  rw [Finset.mem_biUnion]
  exact ⟨a, ha, by rw [List.mem_toFinset]; exact hb⟩

lemma reachSet_subset_of_mem {n : Nat} (g : Graph n) {a b : Fin n}
    (h : b ∈ reachSet g a) : reachSet g b ⊆ reachSet g a := by
  suffices hall : ∀ k, (expandOnce g)^[k] {b} ⊆ reachSet g a from hall n
  intro k
  induction k with
  | zero => simpa using Finset.singleton_subset_iff.mpr h
  | succ k ih =>
    rw [Function.iterate_succ_apply']
    calc expandOnce g ((expandOnce g)^[k] {b})
        ⊆ expandOnce g (reachSet g a) := expandOnce_mono g ih
      _ = reachSet g a := reachSet_fixed g a

lemma reachSet_card_lt {n : Nat} (g : Graph n) {a b : Fin n}
    (hb : b ∈ reachSet g a) (hna : a ∉ reachSet g b) :
    (reachSet g b).card < (reachSet g a).card :=
  Finset.card_lt_card (Finset.ssubset_def.mpr
    ⟨reachSet_subset_of_mem g hb, fun hts => hna (hts (mem_reachSet_self g a))⟩)

lemma mem_insertByDesc {α : Type} (f : α → Nat) (x a : α) :
    ∀ l, a ∈ insertByDesc f x l ↔ a = x ∨ a ∈ l := by
  intro l
  induction l with
  | nil => simp [insertByDesc]
  | cons y ys ih =>
    by_cases h : f x < f y
    · rw [insertByDesc, if_pos h]
      rw [List.mem_cons, ih, List.mem_cons]
      tauto
    · rw [insertByDesc, if_neg h]
      simp

lemma sorted_insertByDesc {α : Type} (f : α → Nat) (x : α) :
    ∀ l, List.Sorted (fun a b => f b ≤ f a) l →
      List.Sorted (fun a b => f b ≤ f a) (insertByDesc f x l) := by
  intro l
  induction l with
  | nil => intro _; simp [insertByDesc]
  | cons y ys ih =>
    intro hs
    rw [List.sorted_cons] at hs
    obtain ⟨hy, hys⟩ := hs
    by_cases h : f x < f y
    · rw [insertByDesc, if_pos h, List.sorted_cons]
      constructor
      · intro b hb
        rcases (mem_insertByDesc f x b ys).mp hb with rfl | hbmem
        · exact h.le
        · exact hy b hbmem
      · exact ih hys
    · rw [insertByDesc, if_neg h, List.sorted_cons]
      constructor
      · intro b hb
        rcases List.mem_cons.mp hb with rfl | hbmem
        · exact Nat.le_of_not_lt h
        · exact le_trans (hy b hbmem) (Nat.le_of_not_lt h)
      · exact List.sorted_cons.mpr ⟨hy, hys⟩

lemma sorted_sortDesc {α : Type} (f : α → Nat) (l : List α) :
    List.Sorted (fun a b => f b ≤ f a) (sortDesc f l) := by
  induction l with
  | nil => simp [sortDesc]
  | cons x xs ih => exact sorted_insertByDesc f x _ ih

lemma mem_sortDesc {α : Type} (f : α → Nat) (a : α) :
    ∀ l, a ∈ sortDesc f l ↔ a ∈ l := by
  intro l
  induction l with
  | nil => simp [sortDesc]
  | cons x xs ih =>
    have : sortDesc f (x :: xs) = insertByDesc f x (sortDesc f xs) := rfl
    rw [this, mem_insertByDesc, ih, List.mem_cons]

lemma indexOf_lt_of_key_lt {α : Type} [DecidableEq α] (f : α → Nat) :
    ∀ (l : List α), List.Sorted (fun x y => f x ≤ f y) l →
      ∀ a b, a ∈ l → b ∈ l → f b < f a → l.indexOf b < l.indexOf a := by
  intro l
  induction l with
  | nil => intro _ a b ha; simp at ha
  | cons x xs ih =>
    intro hs a b ha hb hba
    rw [List.sorted_cons] at hs
    obtain ⟨hx, hxs⟩ := hs
    by_cases hbx : b = x
    · subst hbx
      have hab : a ≠ b := fun h => absurd hba (by rw [h]; exact lt_irrefl _)
      have ha' : a ∈ xs := by
        rcases List.mem_cons.mp ha with rfl | h
        · exact absurd rfl hab
        · exact h
      rw [List.indexOf_cons_self, List.indexOf_cons_ne _ (fun h => hab h.symm)]
      exact Nat.succ_pos _
    · have hax : a ≠ x := by
        intro h
        subst h
        have hb' : b ∈ xs := by
          rcases List.mem_cons.mp hb with rfl | h'
          · exact absurd rfl hbx
          · exact h'
        exact absurd (hx b hb') (not_le.mpr hba)
      have ha' : a ∈ xs := by
        rcases List.mem_cons.mp ha with rfl | h
        · exact absurd rfl hax
        · exact h
      have hb' : b ∈ xs := by
        rcases List.mem_cons.mp hb with rfl | h
        · exact absurd rfl hbx
        · exact h
      rw [List.indexOf_cons_ne _ (fun h => hbx h.symm),
        List.indexOf_cons_ne _ (fun h => hax h.symm)]
      exact Nat.succ_lt_succ (ih hxs a b ha' hb' hba)

lemma processingOrder_sorted {n : Nat} (g : Graph n) (created : List (Fin n)) :
    List.Sorted (fun x y => (reachSet g x).card ≤ (reachSet g y).card)
      (processingOrder g created) := by
  unfold processingOrder sort_targets
  rw [List.Sorted, List.pairwise_reverse]
  exact sorted_sortDesc _ created

lemma mem_processingOrder {n : Nat} (g : Graph n) (created : List (Fin n)) (a : Fin n) :
    a ∈ processingOrder g created ↔ a ∈ created := by
  unfold processingOrder sort_targets
  rw [List.mem_reverse, mem_sortDesc]

/-- C9 counterexample: in `gc9` with requested roots `[1, 0]`, the exported
target `1` belongs to the reduced dependency set of the exported target `0`
(through ownership of the internal target `2`), yet the build/publish order
processes `0` before `1` — `1` is not a build-graph dependency of `0`, so no
topological sort of the original dependency order constrains the pair. -/
theorem c9_counterexample :
    reduced_dependencies gc9 0 = .ok [1]
    ∧ processingOrder gc9 [1, 0] = [0, 1]
    ∧ (processingOrder gc9 [1, 0]).indexOf (0 : Fin 3)
        < (processingOrder gc9 [1, 0]).indexOf 1 := by
  decide

/-- C9 (amended): the build/publish phase respects the original build-graph
dependency order among created targets — whenever `B` lies in `A`'s
dependency closure and `A` not in `B`'s, `B`'s build/publish step is invoked
before `A`'s; reduced-set references that arise purely from ownership
substitution (owner not reachable from the referrer) are not ordered. -/
theorem c9_processing_respects_reachability {n : Nat} (g : Graph n)
    (created : List (Fin n)) (A B : Fin n)
    (hA : A ∈ created) (hB : B ∈ created)
    (hreach : B ∈ reachSet g A) (hnrev : A ∉ reachSet g B) :
    (processingOrder g created).indexOf B < (processingOrder g created).indexOf A :=
  indexOf_lt_of_key_lt _ _ (processingOrder_sorted g created) A B
    ((mem_processingOrder g created A).mpr hA)
    ((mem_processingOrder g created B).mpr hB)
    (reachSet_card_lt g hreach hnrev)

/-- C9 witness: in `gc9` with created targets `[0, 2]`, target `2` is a
dependency of `0` and is processed first. -/
theorem c9_processing_respects_reachability_witness :
    (processingOrder gc9 [0, 2]).indexOf (2 : Fin 3)
      < (processingOrder gc9 [0, 2]).indexOf 0 :=
  c9_processing_respects_reachability gc9 [0, 2] 0 2 (by decide) (by decide)
    (by decide) (by decide)

/-! ## Claim C10: the walk visits each target at most once and terminates -/

lemma foldr_max_le : ∀ (l : List Nat) (x : Nat), x ∈ l → x ≤ l.foldr max 0 := by
  intro l
  induction l with
  | nil => intro x h; simp at h
  | cons a l ih =>
    intro x h
    rcases List.mem_cons.mp h with rfl | h'
    · exact le_max_left _ _
    · exact le_trans (ih x h') (le_max_right _ _)

lemma deps_le_maxDepsLen {n : Nat} (g : Graph n) (c : Fin n) :
    (g.dependencies c).length ≤ maxDepsLen g :=
  foldr_max_le _ _ (List.mem_map_of_mem _ (List.mem_finRange c))

lemma nodup_length_lt {n : Nat} {visited : List (Fin n)} {c : Fin n}
    (hnd : visited.Nodup) (hc : c ∉ visited) : visited.length < n := by
  have h1 : (c :: visited).Nodup := List.nodup_cons.mpr ⟨hc, hnd⟩
  have h2 : (c :: visited).length ≤ Fintype.card (Fin n) :=
    List.Nodup.length_le_card h1
  simpa using h2

lemma nodup_append_single {α : Type} {l : List α} {c : α}
    (h : l.Nodup) (hc : c ∉ l) : (l ++ [c]).Nodup := by
  refine List.Nodup.append h (List.nodup_singleton c) ?_
  intro a ha hb
  rw [List.mem_singleton] at hb
  subst hb
  exact hc ha

lemma walkAux_nodup {n : Nat} (g : Graph n) (keep : Fin n → Bool) :
    ∀ (fuel : Nat) (stack visited : List (Fin n)), visited.Nodup →
      (walkAux g keep fuel stack visited).Nodup := by
  intro fuel
  induction fuel with
  | zero => intro stack visited h; exact h
  | succ fuel ih =>
    intro stack visited h
    cases stack with
    | nil => exact h
    | cons c rest =>
      simp only [walkAux]
      by_cases hc : c ∈ visited
      · rw [if_pos hc]
        exact ih rest visited h
      · rw [if_neg hc]
        have hnd : (visited ++ [c]).Nodup := nodup_append_single h hc
        by_cases hk : keep c = true
        · rw [if_pos hk]
          exact ih _ _ hnd
        · rw [if_neg hk]
          exact ih _ _ hnd

lemma walkAux_stable {n : Nat} (g : Graph n) (keep : Fin n → Bool) :
    ∀ (fuel : Nat) (stack visited : List (Fin n)), visited.Nodup →
      stack.length + (n - visited.length) * (1 + maxDepsLen g) ≤ fuel →
      walkAux g keep fuel stack visited = walkAux g keep (fuel + 1) stack visited := by
  intro fuel
  induction fuel with
  | zero =>
    intro stack visited _ hb
    have hs : stack = [] := by
      cases stack with
      | nil => rfl
      | cons c r => simp at hb
    subst hs
    rfl
  | succ fuel ih =>
    intro stack visited hnd hb
    cases stack with
    | nil => rfl
    | cons c rest =>
      simp only [walkAux]
      rw [List.length_cons] at hb
      by_cases hc : c ∈ visited
      · rw [if_pos hc, if_pos hc]
        apply ih rest visited hnd
        generalize (n - visited.length) * (1 + maxDepsLen g) = X at hb ⊢
        omega
      · rw [if_neg hc, if_neg hc]
        have hnd' : (visited ++ [c]).Nodup := nodup_append_single hnd hc
        have hvlt : visited.length < n := nodup_length_lt hnd hc
        have hdep : (g.dependencies c).length ≤ maxDepsLen g := deps_le_maxDepsLen g c
        have hnv : n - visited.length = (n - (visited.length + 1)) + 1 := by omega
        rw [hnv, Nat.succ_mul] at hb
        by_cases hk : keep c = true
        · rw [if_pos hk, if_pos hk]
          apply ih _ _ hnd'
          rw [List.length_append, List.length_append, List.length_singleton]
          generalize (n - (visited.length + 1)) * (1 + maxDepsLen g) = X at hb ⊢
          omega
        · rw [if_neg hk, if_neg hk]
          apply ih _ _ hnd'
          rw [List.length_append, List.length_singleton]
          generalize (n - (visited.length + 1)) * (1 + maxDepsLen g) = X at hb ⊢
          omega

lemma walkAux_ge {n : Nat} (g : Graph n) (keep : Fin n → Bool) (t : Fin n) :
    ∀ k, walkAux g keep (walkFuel g + k) [t] [] = walk g keep t := by
  intro k
  induction k with
  | zero => rfl
  | succ k ih =>
    rw [show walkFuel g + (k + 1) = (walkFuel g + k) + 1 from rfl]
    rw [← walkAux_stable g keep (walkFuel g + k) [t] [] List.nodup_nil ?bound]
    · exact ih
    case bound =>
      rw [List.length_cons, List.length_nil, Nat.sub_zero]
      unfold walkFuel
      generalize n * (1 + maxDepsLen g) = X
      omega

/-- C10: `_walk` invokes its visitor at most once per target (the visit
sequence has no duplicates), and it terminates on every finite dependency
graph including cyclic ones: the step budget `walkFuel` always suffices, any
larger budget computes the same visit sequence. -/
theorem c10_walk_visits_once_and_terminates {n : Nat} (g : Graph n)
    (keep : Fin n → Bool) (t : Fin n) :
    (walk g keep t).Nodup
    ∧ ∀ fuel, walkFuel g ≤ fuel → walkAux g keep fuel [t] [] = walk g keep t := by
  constructor
  · exact walkAux_nodup g keep (walkFuel g) [t] [] List.nodup_nil
  · intro fuel hf
    have h := walkAux_ge g keep t (fuel - walkFuel g)
    rwa [Nat.add_sub_cancel' hf] at h

/-- C10 witness: on the cyclic graph `gcyc` (targets `0` and `1` depend on
each other) any budget at least `walkFuel` computes the same finished walk. -/
theorem c10_walk_visits_once_and_terminates_witness :
    walkAux gcyc (fun _ => true) (walkFuel gcyc + 1) [0] []
      = walk gcyc (fun _ => true) 0 :=
  (c10_walk_visits_once_and_terminates gcyc (fun _ => true) 0).2
    (walkFuel gcyc + 1) (by decide)

end SetupPyModel

